import Mathlib

/-!
Verification of `deluge_cleanup.py`: a shallow embedding of the report
parser (`parse_torrent_info`), the classification loop in `main`, and the
console-command layer (`Deluge.run_command`, `Deluge.stop_and_remove`),
with theorems settling the specification's claims about them.

Strings are Lean `String`s, but every text operation the Python code uses
(`split`, `strip`, `startswith`, substring containment, `float()`) is
implemented here over `List Char` by structural recursion, so that all
definitions evaluate inside the kernel on concrete inputs.
-/

/-- Whitespace characters stripped by Python's `str.strip()` (ASCII range). -/
def isSpaceChar (c : Char) : Bool :=
  c = ' ' ∨ c = '\t' ∨ c = '\n' ∨ c = '\r' ∨ c = '\x0b' ∨ c = '\x0c'

/-- Python `str.strip()`: drop whitespace from both ends. -/
def strTrim (s : String) : String :=
  ⟨((s.data.dropWhile isSpaceChar).reverse.dropWhile isSpaceChar).reverse⟩

/-- Python `str.startswith(pre)`. -/
def strStartsWith (pre s : String) : Bool :=
  List.isPrefixOf pre.data s.data

/-- Substring containment, Python's `sub in s` for a nonempty `sub`. -/
def subOf (sep : List Char) : List Char → Bool
  | [] => false
  | c :: rest => List.isPrefixOf sep (c :: rest) || subOf sep rest

/-- Python `sub in s` on strings. -/
def strContains (sep s : String) : Bool :=
  subOf sep.data s.data

/-- Worker for `strSplitOn`.  Scans left to right; at the first position
where `sep` is a prefix it emits the accumulated piece and skips `sep`.
`fuel` only bounds the recursion; with `fuel ≥ length` it never runs out
because every step consumes at least one character (`sep` nonempty). -/
def splitGo (sep : List Char) : Nat → List Char → List Char → List (List Char)
  | _, [], acc => [acc.reverse]
  | 0, c :: s, acc => [acc.reverse ++ (c :: s)]
  | fuel + 1, c :: s, acc =>
    if List.isPrefixOf sep (c :: s) then
      acc.reverse :: splitGo sep fuel (List.drop (sep.length - 1) s) []
    else
      splitGo sep fuel s (c :: acc)

/-- Python `s.split(sep)` for a nonempty separator (the only way the
source calls it): non-overlapping, left-to-right. -/
def strSplitOn (sep s : String) : List String :=
  (splitGo sep.data s.data.length s.data []).map (fun l => ⟨l⟩)

/-- Everything after the first occurrence of `sep` in the list (empty if
`sep` does not occur). -/
def afterSub (sep : List Char) : List Char → List Char
  | [] => []
  | c :: s =>
    if List.isPrefixOf sep (c :: s) then List.drop (sep.length - 1) s
    else afterSub sep s

/-- Modelled from the spec: the remainder of the line after a substring,
the quantity the specification says each recognized field is set from. -/
def remainderAfter (sep s : String) : String :=
  ⟨afterSub sep.data s.data⟩

/-- Everything before the first occurrence of `sep` in the list (the
whole list when `sep` does not occur). -/
def beforeSub (sep : List Char) : List Char → List Char
  | [] => []
  | c :: s =>
    if List.isPrefixOf sep (c :: s) then []
    else c :: beforeSub sep s

/-- Modelled from the spec (C5 as amended): the text after the first
occurrence of `sep` in `s` and before its second occurrence — the entire
remainder when `sep` occurs exactly once. -/
def betweenOcc (sep s : String) : String :=
  ⟨beforeSub sep.data (afterSub sep.data s.data)⟩

/-- Decimal digit test. -/
def isDigitChar (c : Char) : Bool :=
  '0' ≤ c ∧ c ≤ '9'

/-- Value of a digit string. -/
def digitsVal (ds : List Char) : Nat :=
  ds.foldl (fun n c => 10 * n + (c.toNat - 48)) 0

/-- Exponent suffix of a float literal: optional sign then digits. -/
def parseExpDigits (cs : List Char) : Option Int :=
  match cs with
  | '+' :: t => if t ≠ [] ∧ t.all isDigitChar then some ((digitsVal t : Int)) else none
  | '-' :: t => if t ≠ [] ∧ t.all isDigitChar then some (-(digitsVal t : Int)) else none
  | t => if t ≠ [] ∧ t.all isDigitChar then some ((digitsVal t : Int)) else none

/-- Unsigned mantissa with optional fraction and exponent, returned as
mantissa digits value, number of fractional digits, and exponent. -/
def parseMantNum (cs : List Char) : Option (Nat × Nat × Int) :=
  let ip := cs.takeWhile isDigitChar
  match cs.dropWhile isDigitChar with
  | [] => if ip = [] then none else some (digitsVal ip, 0, 0)
  | '.' :: r2 =>
    let fp := r2.takeWhile isDigitChar
    if ip = [] ∧ fp = [] then none
    else
      match r2.dropWhile isDigitChar with
      | [] => some (digitsVal (ip ++ fp), fp.length, 0)
      | c :: r4 =>
        if c = 'e' ∨ c = 'E' then
          (parseExpDigits r4).map (fun e => (digitsVal (ip ++ fp), fp.length, e))
        else none
  | c :: r2 =>
    if (c = 'e' ∨ c = 'E') ∧ ip ≠ [] then
      (parseExpDigits r2).map (fun e => (digitsVal ip, 0, e))
    else none

/-- Exact rational value of `sign * m * 10 ^ (e - k)`, built with
`Rat.divInt` over integer arithmetic only. -/
def sciVal (neg : Bool) (m k : Nat) (e : Int) : Rat :=
  let mI : Int := if neg then -(m : Int) else (m : Int)
  if (k : Int) ≤ e then Rat.divInt (mI * ((10 ^ (e - (k : Int)).toNat : Nat) : Int)) 1
  else Rat.divInt mI ((10 ^ (((k : Int) - e).toNat) : Nat) : Int)

/-- Python's `float()` on finite decimal literals, as an exact rational:
optional sign, digits with optional decimal point, optional exponent.
Non-finite literals (`inf`, `nan`) and digit-group underscores are outside
the model; IEEE-754 rounding is not represented (comparisons in this
program are between values parsed from short decimal literals). -/
def pyFloat (s : String) : Option Rat :=
  match s.data with
  | '+' :: t => (parseMantNum t).map (fun x => sciVal false x.1 x.2.1 x.2.2)
  | '-' :: t => (parseMantNum t).map (fun x => sciVal true x.1 x.2.1 x.2.2)
  | t => (parseMantNum t).map (fun x => sciVal false x.1 x.2.1 x.2.2)

/-- One parsed torrent record (`Deluge.Torrent` in the source). -/
structure Torrent where
  name : String
  id : String
  state : String
  ratio : Rat
  tracker : String
deriving DecidableEq

/-- Field values at the start of a record block (source line 65):
`name, torrent_id, state, ratio, tracker = "", "", "", 0, ""`. -/
def initTorrent : Torrent := ⟨"", "", "", 0, ""⟩

/-- Python `line.split(sep)[1]` as used in the parser branches.  In every
branch the separator is known to occur in the line, so index `1` exists
and the default is never reached. -/
def split1 (sep line : String) : String :=
  (strSplitOn sep line).getD 1 ""

/-- One line of a record block: the for-loop body of `parse_torrent_info`
(source lines 67-77), an `elif` chain on the line's shape.  `none` models
the uncaught `ValueError` raised by `float(...)`. -/
def processLine (t : Torrent) (line : String) : Option Torrent :=
  if strStartsWith "Name:" line then some { t with name := strTrim (split1 "Name:" line) }
  else if strStartsWith "ID:" line then some { t with id := strTrim (split1 "ID:" line) }
  else if strStartsWith "State:" line then some { t with state := strTrim (split1 "State:" line) }
  else if strContains "Share Ratio:" line then
    match pyFloat (strTrim (split1 "Share Ratio:" line)) with
    | some r => some { t with ratio := r }
    | none => none
  else if strStartsWith "Tracker:" line then some { t with tracker := strTrim (split1 "Tracker:" line) }
  else some t

/-- Process one record block: split the block on newlines and fold
`processLine` over its lines starting from the empty field values. -/
def parseSection (sec : String) : Option Torrent :=
  (strSplitOn "\n" sec).foldlM processLine initTorrent

/-- One iteration of the outer loop of `parse_torrent_info`: process a
block and append its record exactly when both `name` and `id` are
non-empty (Python truthiness of the two strings, source line 79). -/
def parseStep (acc : List Torrent) (sec : String) : Option (List Torrent) :=
  match parseSection sec with
  | none => none
  | some t => some (if t.name ≠ "" ∧ t.id ≠ "" then acc ++ [t] else acc)

/-- The report parser `parse_torrent_info` (source lines 59-89): split the
dump on blank lines (`"\n\n"`) and fold `parseStep` over the blocks.
`none` models the uncaught `ValueError` propagating out of the whole
parse. -/
def parse_torrent_info (dump : String) : Option (List Torrent) :=
  (strSplitOn "\n\n" dump).foldlM parseStep []

/-- The four possible dispositions of a record in the main loop. -/
inductive Disposition where
  | Delete
  | SkipRatio
  | SkipAllowedTrackerUnderLimit
  | SkipAllowedTrackerOverLimit
deriving DecidableEq

/-- The classification decision of the main loop (source lines 182-206):
the branch taken for one record, extracted as a function of the record,
the ratio limit and the allowed-tracker list. -/
def classify (t : Torrent) (rl : Rat) (allowed : List String) : Disposition :=
  if t.tracker ∈ allowed then
    if t.state = "Seeding" ∧ Torrent.ratio t ≥ rl then Disposition.SkipAllowedTrackerOverLimit
    else Disposition.SkipAllowedTrackerUnderLimit
  else if t.state = "Seeding" ∧ Torrent.ratio t ≥ rl then Disposition.Delete
  else Disposition.SkipRatio

/-- Modelled from the spec: the decision rule of section 4.2, transcribed
clause by clause (membership first, then the exact-state and inclusive
ratio test in each branch). -/
def classifySpec (t : Torrent) (rl : Rat) (allowed : List String) : Disposition :=
  if t.tracker ∈ allowed then
    if t.state = "Seeding" ∧ Torrent.ratio t ≥ rl then Disposition.SkipAllowedTrackerOverLimit
    else Disposition.SkipAllowedTrackerUnderLimit
  else
    if t.state = "Seeding" ∧ Torrent.ratio t ≥ rl then Disposition.Delete
    else Disposition.SkipRatio

/-- Connection data of the `Deluge` class. -/
structure DelugeCfg where
  host : String
  port : String
  user : String
  password : String
deriving DecidableEq

/-- The command string built by `Deluge.run_command` (source line 16). -/
def full_command (d : DelugeCfg) (command : String) : String :=
  "deluge-console \"connect " ++ d.host ++ ":" ++ d.port ++ " " ++ d.user
    ++ " " ++ d.password ++ "; " ++ command ++ "\""

/-- `Deluge.run_command` (source lines 15-32).  The console is an oracle
from full command text to `Option` output; `none` stands for a non-zero
exit, which the source catches as `CalledProcessError` and absorbs into
an empty string.  The result pairs the returned output with the list of
commands issued (here always exactly one). -/
def run_command (d : DelugeCfg) (oracle : String → Option String) (command : String) :
    String × List String :=
  match oracle (full_command d command) with
  | some out => (strTrim out, [full_command d command])
  | none => ("", [full_command d command])

/-- `Deluge.stop_and_remove` (source lines 37-39): pause then remove, the
second command issued unconditionally after the first.  Returns the trace
of issued commands. -/
def stop_and_remove (d : DelugeCfg) (oracle : String → Option String) (t : Torrent) :
    List String :=
  (run_command d oracle ("pause " ++ t.id)).2 ++ (run_command d oracle ("rm " ++ t.id)).2

/-- The four counters accumulated by the main loop (source lines 177-180). -/
structure Counters where
  deleted : Nat
  skipped_tracker : Nat
  skipped_ratio : Nat
  skipped_tracker_ratio : Nat
deriving DecidableEq

/-- The body of the main classification loop (source lines 182-208): one
record updates exactly one counter, and on the delete branch, when not in
test mode, appends the pause/remove commands to the trace. -/
def loopStep (d : DelugeCfg) (oracle : String → Option String) (test : Bool) (rl : Rat)
    (allowed : List String) (acc : Counters × List String) (t : Torrent) :
    Counters × List String :=
  if t.tracker ∈ allowed then
    if t.state = "Seeding" ∧ Torrent.ratio t ≥ rl then
      ({ acc.1 with skipped_tracker_ratio := Counters.skipped_tracker_ratio acc.1 + 1 }, acc.2)
    else
      ({ acc.1 with skipped_tracker := acc.1.skipped_tracker + 1 }, acc.2)
  else if t.state = "Seeding" ∧ Torrent.ratio t ≥ rl then
    ({ acc.1 with deleted := acc.1.deleted + 1 },
      acc.2 ++ (if test then [] else stop_and_remove d oracle t))
  else
    ({ acc.1 with skipped_ratio := Counters.skipped_ratio acc.1 + 1 }, acc.2)

/-- The main classification loop over all parsed records, starting from
zeroed counters and an empty command trace. -/
def runLoop (d : DelugeCfg) (oracle : String → Option String) (test : Bool) (rl : Rat)
    (allowed : List String) (ts : List Torrent) : Counters × List String :=
  ts.foldl (loopStep d oracle test rl allowed) (⟨0, 0, 0, 0⟩, [])

/-- The summary table printed at the end of `main` (source lines 212-222),
as label/value pairs in print order. -/
def summaryLines (test : Bool) (total : Nat) (c : Counters) : List (String × Nat) :=
  [("Total torrents", total)]
    ++ (if test then [("Would be deleted", c.deleted)] else [("Deleted", c.deleted)])
    ++ [("Total skipped", c.skipped_tracker + Counters.skipped_ratio c + Counters.skipped_tracker_ratio c),
        ("Due to ratio", Counters.skipped_ratio c),
        ("Allowed tracker (under limit)", c.skipped_tracker),
        ("Allowed tracker (over limit)", Counters.skipped_tracker_ratio c)]

/-- The effective configuration after `argparse` merges the persisted
config with command-line overrides (the `Args` class of the source).
A connection field is `none` when neither source supplies it. -/
structure Args where
  host : Option String
  port : Option String
  user : Option String
  password : Option String
  ratio_limit : Rat
  container : Option String
  allowed_trackers : List String
  test : Bool
  verbose : Nat

/-- The list of required connection fields (source line 147). -/
def required_args : List String := ["host", "port", "user", "password"]

/-- Python `getattr(args, name)` for the four connection fields. -/
def getArg (a : Args) (n : String) : Option String :=
  if n = "host" then a.host
  else if n = "port" then a.port
  else if n = "user" then a.user
  else if n = "password" then a.password
  else none

/-- Python falsiness of a merged field: absent, or present but empty. -/
def falsyOpt : Option String → Bool
  | none => true
  | some s => s = ""

/-- The `missing_args` comprehension of source line 148. -/
def missing_args (a : Args) : List String :=
  required_args.filter (fun n => falsyOpt (getArg a n))

/-- The `Deluge` instance built from the merged configuration. -/
def cfgOf (a : Args) : DelugeCfg :=
  ⟨a.host.getD "", a.port.getD "", a.user.getD "", a.password.getD ""⟩

/-- The orchestration in `main` (source lines 147-222) from the
validation step onward: validate required fields (raising before any
console contact when one is missing), fetch the dump, parse it, run the
classification loop, and build the summary (printed when verbosity is at
least 1; test mode forces verbosity 2).  Returns the full trace of issued
console commands together with either the raised error or the counters
and printed summary. -/
def runMain (a : Args) (oracle : String → Option String) :
    List String × Except String (Counters × List (String × Nat)) :=
  if missing_args a ≠ [] then
    ([], Except.error ("Missing required arguments: " ++ String.intercalate ", " (missing_args a)))
  else
    match parse_torrent_info (run_command (cfgOf a) oracle "info --detailed").1 with
    | none =>
      ((run_command (cfgOf a) oracle "info --detailed").2,
        Except.error "could not convert string to float")
    | some ts =>
      ((run_command (cfgOf a) oracle "info --detailed").2
          ++ (runLoop (cfgOf a) oracle a.test a.ratio_limit a.allowed_trackers ts).2,
        Except.ok ((runLoop (cfgOf a) oracle a.test a.ratio_limit a.allowed_trackers ts).1,
          if (if a.test then 2 else a.verbose) ≥ 1 then
            summaryLines a.test ts.length
              (runLoop (cfgOf a) oracle a.test a.ratio_limit a.allowed_trackers ts).1
          else []))

theorem splitGo_ne_nil (sep : List Char) :
    ∀ (fuel : Nat) (s acc : List Char), splitGo sep fuel s acc ≠ [] := by
  intro fuel
  induction fuel with
  | zero => intro s acc; cases s <;> simp [splitGo]
  | succ n ih =>
    intro s acc
    cases s with
    | nil => simp [splitGo]
    | cons c rest =>
      simp only [splitGo]
      split
      · simp
      · exact ih rest (c :: acc)

theorem splitGo_singleton (sep : List Char) :
    ∀ (fuel : Nat) (s acc x : List Char),
      splitGo sep fuel s acc = [x] → x = acc.reverse ++ s := by
  intro fuel
  induction fuel with
  | zero =>
    intro s acc x h
    cases s with
    | nil => simp [splitGo] at h; simp [h]
    | cons c rest => simp [splitGo] at h; simp [h]
  | succ n ih =>
    intro s acc x h
    cases s with
    | nil => simp [splitGo] at h; simp [h]
    | cons c rest =>
      simp only [splitGo] at h
      split at h
      · injection h with h1 h2
        exact absurd h2 (splitGo_ne_nil sep n _ [])
      · have := ih rest (c :: acc) x h
        simpa [List.append_assoc] using this

theorem splitGo_pair (sep : List Char) :
    ∀ (fuel : Nat) (s acc a b : List Char),
      splitGo sep fuel s acc = [a, b] → b = afterSub sep s := by
  intro fuel
  induction fuel with
  | zero => intro s acc a b h; cases s <;> simp [splitGo] at h
  | succ n ih =>
    intro s acc a b h
    cases s with
    | nil => simp [splitGo] at h
    | cons c rest =>
      simp only [splitGo] at h
      by_cases hp : List.isPrefixOf sep (c :: rest)
      · rw [if_pos hp] at h
        injection h with h1 h2
        have hb := splitGo_singleton sep n _ [] b h2
        simp only [List.reverse_nil, List.nil_append] at hb
        simp [afterSub, hp, hb]
      · rw [if_neg hp] at h
        have := ih rest (c :: acc) a b h
        simp [afterSub, hp, this]

theorem strSplitOn_pair (sep line a b : String) (h : strSplitOn sep line = [a, b]) :
    b = remainderAfter sep line := by
  rw [strSplitOn] at h
  cases hg : splitGo sep.data line.data.length line.data [] with
  | nil => rw [hg] at h; simp at h
  | cons x xs =>
    cases xs with
    | nil => rw [hg] at h; simp at h
    | cons y ys =>
      cases ys with
      | nil =>
        rw [hg] at h
        simp only [List.map_cons, List.map_nil] at h
        have h2 : (⟨y⟩ : String) = b := by
          injection h with hh ht
          injection ht with hh2 _
        have hy := splitGo_pair sep.data line.data.length line.data [] x y hg
        calc b = (⟨y⟩ : String) := h2.symm
          _ = ⟨afterSub sep.data line.data⟩ := by rw [hy]
          _ = remainderAfter sep line := rfl
      | cons z zs => rw [hg] at h; simp at h

theorem split1_eq_remainder (sep line : String)
    (h2 : (strSplitOn sep line).length = 2) :
    split1 sep line = remainderAfter sep line := by
  obtain ⟨a, b, hab⟩ := List.length_eq_two.mp h2
  have hb : b = remainderAfter sep line := strSplitOn_pair sep line a b hab
  rw [split1, hab]
  show b = remainderAfter sep line
  exact hb

theorem splitGo_head (sep : List Char) :
    ∀ (fuel : Nat) (s acc a : List Char) (rest : List (List Char)),
      s.length ≤ fuel → splitGo sep fuel s acc = a :: rest →
      a = acc.reverse ++ beforeSub sep s := by
  intro fuel
  induction fuel with
  | zero =>
    intro s acc a rest hb h
    have hs : s = [] := List.eq_nil_of_length_eq_zero (Nat.le_zero.mp hb)
    subst hs
    simp only [splitGo] at h
    injection h with h1 _
    simp [beforeSub, ← h1]
  | succ n ih =>
    intro s acc a rest hb h
    cases s with
    | nil =>
      simp only [splitGo] at h
      injection h with h1 _
      simp [beforeSub, ← h1]
    | cons c s2 =>
      have hb2 : s2.length ≤ n := by
        simp only [List.length_cons] at hb
        omega
      simp only [splitGo] at h
      by_cases hp : List.isPrefixOf sep (c :: s2)
      · rw [if_pos hp] at h
        injection h with h1 _
        simp [beforeSub, hp, ← h1]
      · rw [if_neg hp] at h
        have ha := ih s2 (c :: acc) a rest hb2 h
        simp only [beforeSub, if_neg hp]
        rw [ha]
        simp

theorem splitGo_second (sep : List Char) :
    ∀ (fuel : Nat) (s acc a b : List Char) (rest : List (List Char)),
      s.length ≤ fuel → splitGo sep fuel s acc = a :: b :: rest →
      b = beforeSub sep (afterSub sep s) := by
  intro fuel
  induction fuel with
  | zero =>
    intro s acc a b rest hb h
    have hs : s = [] := List.eq_nil_of_length_eq_zero (Nat.le_zero.mp hb)
    subst hs
    simp [splitGo] at h
  | succ n ih =>
    intro s acc a b rest hb h
    cases s with
    | nil => simp [splitGo] at h
    | cons c s2 =>
      have hb2 : s2.length ≤ n := by
        simp only [List.length_cons] at hb
        omega
      simp only [splitGo] at h
      by_cases hp : List.isPrefixOf sep (c :: s2)
      · rw [if_pos hp] at h
        injection h with h1 h2
        have hdrop : (List.drop (sep.length - 1) s2).length ≤ n := by
          rw [List.length_drop]
          omega
        have hhd := splitGo_head sep n (List.drop (sep.length - 1) s2) [] b rest hdrop h2
        simp only [List.reverse_nil, List.nil_append] at hhd
        simp [afterSub, hp, hhd]
      · rw [if_neg hp] at h
        have := ih s2 (c :: acc) a b rest hb2 h
        simp [afterSub, hp, this]

theorem subOf_splitGo_two (sep : List Char) :
    ∀ (fuel : Nat) (s acc : List Char),
      s.length ≤ fuel → subOf sep s = true →
      2 ≤ (splitGo sep fuel s acc).length := by
  intro fuel
  induction fuel with
  | zero =>
    intro s acc hb hc
    have hs : s = [] := List.eq_nil_of_length_eq_zero (Nat.le_zero.mp hb)
    subst hs
    simp [subOf] at hc
  | succ n ih =>
    intro s acc hb hc
    cases s with
    | nil => simp [subOf] at hc
    | cons c s2 =>
      have hb2 : s2.length ≤ n := by
        simp only [List.length_cons] at hb
        omega
      simp only [splitGo]
      by_cases hp : List.isPrefixOf sep (c :: s2)
      · rw [if_pos hp]
        have hpos : 0 < (splitGo sep n (List.drop (sep.length - 1) s2) []).length :=
          List.length_pos.mpr (splitGo_ne_nil sep n _ [])
        simp only [List.length_cons]
        omega
      · rw [if_neg hp]
        have hc2 : subOf sep s2 = true := by
          simp only [subOf, Bool.or_eq_true] at hc
          rcases hc with h | h
          · exact absurd h hp
          · exact h
        exact ih s2 (c :: acc) hb2 hc2

theorem strContains_two (sep line : String) (h : strContains sep line = true) :
    2 ≤ (strSplitOn sep line).length := by
  rw [strSplitOn, List.length_map]
  exact subOf_splitGo_two sep.data line.data.length line.data [] (le_refl _) h

theorem strSplitOn_second (sep line a b : String) (rest : List String)
    (h : strSplitOn sep line = a :: b :: rest) :
    b = betweenOcc sep line := by
  rw [strSplitOn] at h
  cases hg : splitGo sep.data line.data.length line.data [] with
  | nil => rw [hg] at h; simp at h
  | cons x xs =>
    cases xs with
    | nil => rw [hg] at h; simp at h
    | cons y ys =>
      rw [hg] at h
      simp only [List.map_cons] at h
      injection h with h1 h2
      injection h2 with h2 h3
      have hy := splitGo_second sep.data line.data.length line.data [] x y ys (le_refl _) hg
      rw [← h2, hy]
      rfl

theorem split1_eq_between (sep line : String)
    (h : 2 ≤ (strSplitOn sep line).length) :
    split1 sep line = betweenOcc sep line := by
  rcases hsp : strSplitOn sep line with _ | ⟨a, _ | ⟨b, rest⟩⟩
  · rw [hsp] at h; simp at h
  · rw [hsp] at h; simp at h
  · have hb := strSplitOn_second sep line a b rest hsp
    rw [split1, hsp]
    show b = betweenOcc sep line
    exact hb

theorem foldlM_none_of_mem {α β : Type} (g : β → α → Option β) :
    ∀ (l : List α) (b : β) (x : α), x ∈ l → (∀ y, g y x = none) →
      List.foldlM g b l = none := by
  intro l
  induction l with
  | nil => intro b x hx _; exact absurd hx (List.not_mem_nil x)
  | cons c cs ih =>
    intro b x hx hnone
    rw [List.foldlM_cons]
    rcases List.mem_cons.mp hx with h | h
    · subst h
      rw [hnone b]
      rfl
    · cases hgc : g b c with
      | none => rfl
      | some b2 => exact ih b2 x h hnone

theorem foldl_parse_char :
    ∀ (secs : List String) (acc fs : List Torrent),
      List.mapM parseSection secs = some fs →
      List.foldlM parseStep acc secs
        = some (acc ++ fs.filterMap (fun t => if t.name ≠ "" ∧ t.id ≠ "" then some t else none)) := by
  intro secs
  induction secs with
  | nil =>
    intro acc fs h
    simp only [List.mapM_nil] at h
    injection h with h
    subst h
    simp
  | cons s ss ih =>
    intro acc fs h
    rw [List.mapM_cons] at h
    cases hs : parseSection s with
    | none => rw [hs] at h; simp at h
    | some t =>
      rw [hs] at h
      cases hss : List.mapM parseSection ss with
      | none => rw [hss] at h; simp at h
      | some gs =>
        rw [hss] at h
        simp only [Option.pure_def] at h
        have hfs : fs = t :: gs := by
          injection h with h
          exact h.symm
        subst hfs
        rw [List.foldlM_cons]
        have hstep : parseStep acc s = some (if t.name ≠ "" ∧ t.id ≠ "" then acc ++ [t] else acc) := by
          simp [parseStep, hs]
        rw [hstep]
        show List.foldlM parseStep (if t.name ≠ "" ∧ t.id ≠ "" then acc ++ [t] else acc) ss = _
        rw [ih _ gs hss]
        by_cases hv : t.name ≠ "" ∧ t.id ≠ ""
        · simp [hv, List.filterMap_cons]
        · simp [hv, List.filterMap_cons]

theorem foldl_parse_some :
    ∀ (secs : List String) (acc ts : List Torrent),
      List.foldlM parseStep acc secs = some ts →
      ∃ fs, List.mapM parseSection secs = some fs := by
  intro secs
  induction secs with
  | nil => intro acc ts _; exact ⟨[], rfl⟩
  | cons s ss ih =>
    intro acc ts h
    rw [List.foldlM_cons] at h
    cases hs : parseSection s with
    | none =>
      rw [show parseStep acc s = none by simp [parseStep, hs]] at h
      simp at h
    | some t =>
      rw [show parseStep acc s
          = some (if t.name ≠ "" ∧ t.id ≠ "" then acc ++ [t] else acc) by simp [parseStep, hs]] at h
      obtain ⟨gs, hgs⟩ := ih _ ts h
      refine ⟨t :: gs, ?_⟩
      rw [List.mapM_cons, hs, hgs]
      rfl

theorem mapM_filterMap_eq :
    ∀ (secs : List String) (fs : List Torrent),
      List.mapM parseSection secs = some fs →
      fs.filterMap (fun t => if t.name ≠ "" ∧ t.id ≠ "" then some t else none)
        = secs.filterMap (fun sec => (parseSection sec).bind
            (fun t => if t.name ≠ "" ∧ t.id ≠ "" then some t else none)) := by
  intro secs
  induction secs with
  | nil =>
    intro fs h
    simp only [List.mapM_nil] at h
    injection h with h
    subst h
    simp
  | cons s ss ih =>
    intro fs h
    rw [List.mapM_cons] at h
    cases hs : parseSection s with
    | none => rw [hs] at h; simp at h
    | some t =>
      rw [hs] at h
      cases hss : List.mapM parseSection ss with
      | none => rw [hss] at h; simp at h
      | some gs =>
        rw [hss] at h
        simp only [Option.pure_def] at h
        have hfs : fs = t :: gs := by
          injection h with h
          exact h.symm
        subst hfs
        rw [List.filterMap_cons, List.filterMap_cons, hs, ih gs hss]
        rfl

theorem stop_and_remove_eq (d : DelugeCfg) (oracle : String → Option String) (t : Torrent) :
    stop_and_remove d oracle t
      = [full_command d ("pause " ++ t.id), full_command d ("rm " ++ t.id)] := by
  rw [stop_and_remove]
  cases h1 : oracle (full_command d ("pause " ++ t.id)) <;>
    cases h2 : oracle (full_command d ("rm " ++ t.id)) <;>
      simp [run_command, h1, h2]

theorem loopStep_char (d : DelugeCfg) (oracle : String → Option String) (test : Bool)
    (rl : Rat) (allowed : List String) (acc : Counters × List String) (t : Torrent) :
    loopStep d oracle test rl allowed acc t
      = (match classify t rl allowed with
        | Disposition.SkipAllowedTrackerOverLimit =>
          ({ acc.1 with skipped_tracker_ratio := Counters.skipped_tracker_ratio acc.1 + 1 }, acc.2)
        | Disposition.SkipAllowedTrackerUnderLimit =>
          ({ acc.1 with skipped_tracker := acc.1.skipped_tracker + 1 }, acc.2)
        | Disposition.Delete =>
          ({ acc.1 with deleted := acc.1.deleted + 1 },
            acc.2 ++ (if test then [] else stop_and_remove d oracle t))
        | Disposition.SkipRatio =>
          ({ acc.1 with skipped_ratio := Counters.skipped_ratio acc.1 + 1 }, acc.2)) := by
  by_cases h1 : t.tracker ∈ allowed <;>
    by_cases h2 : t.state = "Seeding" ∧ Torrent.ratio t ≥ rl <;>
      simp [loopStep, classify, h1, h2]

theorem loop_trace_false (d : DelugeCfg) (oracle : String → Option String) (rl : Rat)
    (allowed : List String) :
    ∀ (ts : List Torrent) (acc : Counters × List String),
      (List.foldl (loopStep d oracle false rl allowed) acc ts).2
        = acc.2 ++ ts.flatMap (fun t =>
            if classify t rl allowed = Disposition.Delete then
              [full_command d ("pause " ++ t.id), full_command d ("rm " ++ t.id)]
            else []) := by
  intro ts
  induction ts with
  | nil => intro acc; simp
  | cons t ts ih =>
    intro acc
    rw [List.foldl_cons, ih, loopStep_char]
    cases hc : classify t rl allowed <;>
      simp [hc, stop_and_remove_eq d oracle t, List.append_assoc]

theorem loop_trace_true (d : DelugeCfg) (oracle : String → Option String) (rl : Rat)
    (allowed : List String) :
    ∀ (ts : List Torrent) (acc : Counters × List String),
      (List.foldl (loopStep d oracle true rl allowed) acc ts).2 = acc.2 := by
  intro ts
  induction ts with
  | nil => intro acc; rfl
  | cons t ts ih =>
    intro acc
    rw [List.foldl_cons, ih, loopStep_char]
    cases hc : classify t rl allowed <;> simp

theorem loop_fst_ext (d d' : DelugeCfg) (oracle oracle' : String → Option String)
    (test test' : Bool) (rl : Rat) (allowed : List String) :
    ∀ (ts : List Torrent) (c : Counters) (tr tr' : List String),
      (List.foldl (loopStep d oracle test rl allowed) (c, tr) ts).1
        = (List.foldl (loopStep d' oracle' test' rl allowed) (c, tr') ts).1 := by
  intro ts
  induction ts with
  | nil => intro c tr tr'; rfl
  | cons t ts ih =>
    intro c tr tr'
    rw [List.foldl_cons, List.foldl_cons, loopStep_char, loopStep_char]
    cases hc : classify t rl allowed <;> exact ih _ _ _

theorem loop_deleted_count (d : DelugeCfg) (oracle : String → Option String) (test : Bool)
    (rl : Rat) (allowed : List String) :
    ∀ (ts : List Torrent) (c : Counters) (tr : List String),
      Counters.deleted (List.foldl (loopStep d oracle test rl allowed) (c, tr) ts).1
        = c.deleted + ts.countP (fun t => decide (classify t rl allowed = Disposition.Delete)) := by
  intro ts
  induction ts with
  | nil => intro c tr; simp
  | cons t ts ih =>
    intro c tr
    rw [List.foldl_cons, loopStep_char]
    rw [List.countP_cons]
    cases hc : classify t rl allowed <;> simp [hc, ih]
    all_goals omega

theorem loop_sum (d : DelugeCfg) (oracle : String → Option String) (test : Bool)
    (rl : Rat) (allowed : List String) :
    ∀ (ts : List Torrent) (c : Counters) (tr : List String),
      Counters.deleted (List.foldl (loopStep d oracle test rl allowed) (c, tr) ts).1
          + Counters.skipped_ratio (List.foldl (loopStep d oracle test rl allowed) (c, tr) ts).1
          + Counters.skipped_tracker (List.foldl (loopStep d oracle test rl allowed) (c, tr) ts).1
          + Counters.skipped_tracker_ratio (List.foldl (loopStep d oracle test rl allowed) (c, tr) ts).1
        = c.deleted + Counters.skipped_ratio c + c.skipped_tracker
            + Counters.skipped_tracker_ratio c + ts.length := by
  intro ts
  induction ts with
  | nil => intro c tr; simp
  | cons t ts ih =>
    intro c tr
    rw [List.foldl_cons, loopStep_char]
    cases hc : classify t rl allowed <;> simp [ih] <;> omega

/-- C1: for every torrent record the classification is decided by exactly
the spec's rule — allowed-tracker membership first, then in each branch
the exact `"Seeding"` state test combined with the inclusive `>=` ratio
comparison — and, in particular, a ratio exactly equal to the limit
qualifies in both the allow-listed branch (giving
`SkipAllowedTrackerOverLimit`) and the non-allow-listed branch (giving
`Delete`). -/
theorem c1_classification_rule (t : Torrent) (rl : Rat) (allowed : List String) :
    classify t rl allowed = classifySpec t rl allowed
    ∧ ( Torrent.ratio t = rl → t.state = "Seeding" →
        (t.tracker ∈ allowed →
          classify t rl allowed = Disposition.SkipAllowedTrackerOverLimit)
        ∧ (t.tracker ∉ allowed → classify t rl allowed = Disposition.Delete)) := by
  refine ⟨rfl, fun hr hs => ⟨fun hm => ?_, fun hm => ?_⟩⟩
  · simp [classify, hm, hs, hr, le_refl]
  · simp [classify, hm, hs, hr, le_refl]

/-- Witness for C1, at the boundary `ratio = ratio_limit`. -/
theorem c1_witness :
    classify ⟨"n", "1", "Seeding", Rat.divInt 1 2, "t1"⟩ (Rat.divInt 1 2) ["t1"]
        = Disposition.SkipAllowedTrackerOverLimit
      ∧ classify ⟨"n", "1", "Seeding", Rat.divInt 1 2, "t1"⟩ (Rat.divInt 1 2) []
        = Disposition.Delete := by
  constructor
  · exact ((c1_classification_rule ⟨"n", "1", "Seeding", Rat.divInt 1 2, "t1"⟩
      (Rat.divInt 1 2) ["t1"]).2 (by decide) (by decide)).1 (by decide)
  · exact ((c1_classification_rule ⟨"n", "1", "Seeding", Rat.divInt 1 2, "t1"⟩
      (Rat.divInt 1 2) []).2 (by decide) (by decide)).2 (by decide)

/-- C2: with dry-run off, the loop's command trace is exactly, in input
order, the pause-by-id command followed by the remove-by-id command for
each record classified `Delete`, and nothing for any other record.  The
equation holds for every oracle — in particular for an oracle on which
the pause command fails (returns `none`, the modelled
`CalledProcessError`) — so the remove command is still issued after a
failed pause and no abort-on-first-failure happens within the pair. -/
theorem c2_delete_pause_then_rm (d : DelugeCfg) (oracle : String → Option String)
    (rl : Rat) (allowed : List String) (ts : List Torrent) :
    (runLoop d oracle false rl allowed ts).2
      = ts.flatMap (fun t =>
          if classify t rl allowed = Disposition.Delete then
            [full_command d ("pause " ++ t.id), full_command d ("rm " ++ t.id)]
          else []) := by
  rw [runLoop, loop_trace_false]
  rfl

/-- C3: in dry-run (test) mode, for every input and configuration the
loop issues no console command at all; the counters are computed exactly
as in non-test mode; the would-be-deleted counter equals the number of
records classified `Delete`; and the summary reports that counter under
the label `"Would be deleted"`. -/
theorem c3_dry_run (d : DelugeCfg) (oracle : String → Option String) (rl : Rat)
    (allowed : List String) (ts : List Torrent) :
    (runLoop d oracle true rl allowed ts).2 = []
    ∧ (runLoop d oracle true rl allowed ts).1 = (runLoop d oracle false rl allowed ts).1
    ∧ Counters.deleted (runLoop d oracle true rl allowed ts).1
        = ts.countP (fun t => decide (classify t rl allowed = Disposition.Delete))
    ∧ ("Would be deleted", Counters.deleted (runLoop d oracle true rl allowed ts).1)
        ∈ summaryLines true ts.length (runLoop d oracle true rl allowed ts).1 := by
  refine ⟨?_, ?_, ?_, ?_⟩
  · rw [runLoop]
    exact loop_trace_true d oracle rl allowed ts _
  · rw [runLoop, runLoop]
    exact loop_fst_ext d d oracle oracle true false rl allowed ts _ _ _
  · rw [runLoop, loop_deleted_count]
    simp
  · simp [summaryLines]

/-- C10: every record increments exactly one of the four counters, so
after the loop the four counters sum to the number of parsed records. -/
theorem c10_counters_sum (d : DelugeCfg) (oracle : String → Option String) (test : Bool)
    (rl : Rat) (allowed : List String) (ts : List Torrent) :
    Counters.deleted (runLoop d oracle test rl allowed ts).1
        + Counters.skipped_ratio (runLoop d oracle test rl allowed ts).1
        + Counters.skipped_tracker (runLoop d oracle test rl allowed ts).1
        + Counters.skipped_tracker_ratio (runLoop d oracle test rl allowed ts).1
      = ts.length := by
  rw [runLoop, loop_sum]
  simp

theorem run_command_trace (d : DelugeCfg) (oracle : String → Option String) (cmd : String) :
    (run_command d oracle cmd).2 = [full_command d cmd] := by
  rw [run_command]
  cases oracle (full_command d cmd) <;> rfl

/-- C4 counterexample: the block `"Name: x\nShare Ratio: zz"` has an
empty `id`, so by the claim it should be dropped silently with the parse
still succeeding; instead the malformed `Share Ratio:` field aborts the
whole parse (the uncaught `ValueError`, modelled as `none`). -/
theorem c4_counterexample :
    parse_torrent_info "Name: x\nShare Ratio: zz" = none
      ∧ parse_torrent_info "Name: x\nShare Ratio: zz" ≠ some [] := by
  decide

/-- C4 (amended): for every dump whose blocks all process without a
float-parse error, the parser appends a record for a block if and only
if both the parsed name and id are non-empty, and a block failing the
test is dropped silently — the output is exactly the per-block records
filtered by that test.  (The amendment qualifies the claim's "regardless
of which other fields it contains": a block containing a malformed
`Share Ratio:` line aborts the parse instead of being dropped; see C7.) -/
theorem c4_retained_iff_valid (dump : String) (fs : List Torrent)
    (h : List.mapM parseSection (strSplitOn "\n\n" dump) = some fs) :
    parse_torrent_info dump
      = some (fs.filterMap (fun t => if t.name ≠ "" ∧ t.id ≠ "" then some t else none)) := by
  rw [parse_torrent_info, foldl_parse_char (strSplitOn "\n\n" dump) [] fs h]
  rfl

/-- Witness for C4: a dump with one valid block and one block lacking
`ID:`; the second is dropped silently. -/
theorem c4_witness :
    parse_torrent_info "Name: x\nID: 1\n\nName: y" = some [⟨"x", "1", "", 0, ""⟩] := by
  have h := c4_retained_iff_valid "Name: x\nID: 1\n\nName: y"
    [⟨"x", "1", "", 0, ""⟩, ⟨"y", "", "", 0, ""⟩] (by decide)
  rw [h]
  decide

/-- C5 counterexample, on two concrete inputs.  The line
`"Name: a Share Ratio: 7"` contains `Share Ratio:` yet is consumed by
the earlier `Name:` branch, leaving the block's `ratio` at `0` where the
claim demands `7` (second conjunct).  On
`"Share Ratio: 1 Share Ratio: 2"` the code sets `ratio` to `1`, the text
between the two occurrences, whereas the trimmed remainder after the
substring, `"1 Share Ratio: 2"`, does not parse as a float at all
(fourth conjunct), so the claim's prescription cannot even be applied. -/
theorem c5_counterexample :
    processLine initTorrent "Name: a Share Ratio: 7"
        = some { initTorrent with name := "a Share Ratio: 7" }
      ∧ pyFloat (strTrim (remainderAfter "Share Ratio:" "Name: a Share Ratio: 7")) = some 7
      ∧ processLine initTorrent "Share Ratio: 1 Share Ratio: 2"
        = some { initTorrent with ratio := 1 }
      ∧ pyFloat (strTrim (remainderAfter "Share Ratio:" "Share Ratio: 1 Share Ratio: 2"))
        = none := by
  decide

/-- C5 (amended): a line sets `ratio` exactly when it reaches the ratio
branch — it contains `Share Ratio:` and does not start with `Name:`,
`ID:` or `State:` — and for every such line the value is the text after
the first occurrence of the substring and before its second occurrence,
trimmed and parsed as a floating-point number (a failed parse
propagating as the fatal `none`); when the substring occurs exactly once
that text is the entire remainder of the line after the substring. -/
theorem c5_ratio_line (t : Torrent) (line : String)
    (h1 : strStartsWith "Name:" line = false)
    (h2 : strStartsWith "ID:" line = false)
    (h3 : strStartsWith "State:" line = false)
    (h4 : strContains "Share Ratio:" line = true) :
    (processLine t line
      = Option.map (fun r => { t with ratio := r })
          (pyFloat (strTrim (betweenOcc "Share Ratio:" line))))
    ∧ ((strSplitOn "Share Ratio:" line).length = 2 →
        betweenOcc "Share Ratio:" line = remainderAfter "Share Ratio:" line) := by
  have hge := strContains_two "Share Ratio:" line h4
  have hsp := split1_eq_between "Share Ratio:" line hge
  constructor
  · simp only [processLine, h1, h2, h3, h4, Bool.false_eq_true, if_false, if_true, ite_false,
      ite_true]
    rw [hsp]
    cases pyFloat (strTrim (betweenOcc "Share Ratio:" line)) <;> rfl
  · intro hocc
    exact hsp.symm.trans (split1_eq_remainder "Share Ratio:" line hocc)

/-- Witness for C5: a single-occurrence ratio line and a
repeated-occurrence ratio line, plus the entire-remainder equality in
the single-occurrence case. -/
theorem c5_witness :
    processLine initTorrent "Share Ratio: 0.75"
        = some { initTorrent with ratio := Rat.divInt 3 4 }
      ∧ processLine initTorrent "Share Ratio: 1 Share Ratio: 2e0"
        = some { initTorrent with ratio := 1 }
      ∧ betweenOcc "Share Ratio:" "Share Ratio: 0.75"
        = remainderAfter "Share Ratio:" "Share Ratio: 0.75" := by
  refine ⟨?_, ?_, ?_⟩
  · rw [(c5_ratio_line initTorrent "Share Ratio: 0.75" (by decide) (by decide) (by decide)
      (by decide)).1]
    decide
  · rw [(c5_ratio_line initTorrent "Share Ratio: 1 Share Ratio: 2e0" (by decide) (by decide)
      (by decide) (by decide)).1]
    decide
  · exact (c5_ratio_line initTorrent "Share Ratio: 0.75" (by decide) (by decide) (by decide)
      (by decide)).2 (by decide)

/-- C6 counterexample, on two concrete inputs.  The line
`"Tracker: t Share Ratio: 2"` starts with `Tracker:` but is consumed by
the earlier ratio branch, so `tracker` stays empty instead of the
claim's trimmed remainder `"t Share Ratio: 2"` (second conjunct).  On
`"Name:Name:x"` the code sets `name` to the empty text between the two
occurrences of the label, not to the claim's entire trimmed remainder
`"Name:x"` (fourth conjunct). -/
theorem c6_counterexample :
    processLine initTorrent "Tracker: t Share Ratio: 2"
        = some { initTorrent with ratio := 2 }
      ∧ strTrim (remainderAfter "Tracker:" "Tracker: t Share Ratio: 2") = "t Share Ratio: 2"
      ∧ processLine initTorrent "Name:Name:x" = some initTorrent
      ∧ strTrim (remainderAfter "Name:" "Name:Name:x") = "Name:x" := by
  decide

/-- C6 (amended): a line starting with one of the labels sets the
corresponding field to the trimmed remainder of the line after the
label, provided the label occurs exactly once in the line, earlier
branches of the `elif` chain do not fire, and — for `Tracker:` lines —
the line does not contain `Share Ratio:` (such a line is treated as a
ratio line instead).  With a repeated label, only the text before its
second occurrence is taken. -/
theorem c6_label_lines (t : Torrent) (line : String) :
    (strStartsWith "Name:" line = true → (strSplitOn "Name:" line).length = 2 →
      processLine t line = some { t with name := strTrim (remainderAfter "Name:" line) })
    ∧ (strStartsWith "Name:" line = false → strStartsWith "ID:" line = true →
        (strSplitOn "ID:" line).length = 2 →
        processLine t line = some { t with id := strTrim (remainderAfter "ID:" line) })
    ∧ (strStartsWith "Name:" line = false → strStartsWith "ID:" line = false →
        strStartsWith "State:" line = true → (strSplitOn "State:" line).length = 2 →
        processLine t line = some { t with state := strTrim (remainderAfter "State:" line) })
    ∧ (strStartsWith "Name:" line = false → strStartsWith "ID:" line = false →
        strStartsWith "State:" line = false → strContains "Share Ratio:" line = false →
        strStartsWith "Tracker:" line = true → (strSplitOn "Tracker:" line).length = 2 →
        processLine t line
          = some { t with tracker := strTrim (remainderAfter "Tracker:" line) }) := by
  refine ⟨fun h1 hl => ?_, fun h1 h2 hl => ?_, fun h1 h2 h3 hl => ?_,
    fun h1 h2 h3 h4 h5 hl => ?_⟩
  · simp [processLine, h1, split1_eq_remainder _ _ hl]
  · simp [processLine, h1, h2, split1_eq_remainder _ _ hl]
  · simp [processLine, h1, h2, h3, split1_eq_remainder _ _ hl]
  · simp [processLine, h1, h2, h3, h4, h5, split1_eq_remainder _ _ hl]

/-- Witness for C6: all four label branches at concrete lines. -/
theorem c6_witness :
    processLine initTorrent "Name: n" = some { initTorrent with name := "n" }
    ∧ processLine initTorrent "ID: 7" = some { initTorrent with id := "7" }
    ∧ processLine initTorrent "State: Seeding" = some { initTorrent with state := "Seeding" }
    ∧ processLine initTorrent "Tracker: tr" = some { initTorrent with tracker := "tr" } := by
  refine ⟨?_, ?_, ?_, ?_⟩
  · rw [(c6_label_lines initTorrent "Name: n").1 (by decide) (by decide)]
    decide
  · rw [(c6_label_lines initTorrent "ID: 7").2.1 (by decide) (by decide) (by decide)]
    decide
  · rw [(c6_label_lines initTorrent "State: Seeding").2.2.1 (by decide) (by decide) (by decide)
      (by decide)]
    decide
  · rw [(c6_label_lines initTorrent "Tracker: tr").2.2.2 (by decide) (by decide) (by decide)
      (by decide) (by decide) (by decide)]
    decide

/-- C7: a line that reaches the `Share Ratio:` branch and whose
extracted text does not parse as a float makes the whole parse return
`none` — the uncaught `ValueError` aborting the run — rather than
skipping the record, defaulting the ratio, or recovering. -/
theorem c7_bad_ratio_aborts (dump sec line : String)
    (hsec : sec ∈ strSplitOn "\n\n" dump)
    (hline : line ∈ strSplitOn "\n" sec)
    (h1 : strStartsWith "Name:" line = false)
    (h2 : strStartsWith "ID:" line = false)
    (h3 : strStartsWith "State:" line = false)
    (h4 : strContains "Share Ratio:" line = true)
    (h5 : pyFloat (strTrim (split1 "Share Ratio:" line)) = none) :
    parse_torrent_info dump = none := by
  have hpl : ∀ t, processLine t line = none := by
    intro t
    simp [processLine, h1, h2, h3, h4, h5]
  have hsec_none : parseSection sec = none := by
    rw [parseSection]
    exact foldlM_none_of_mem processLine (strSplitOn "\n" sec) initTorrent line hline hpl
  rw [parse_torrent_info]
  refine foldlM_none_of_mem parseStep (strSplitOn "\n\n" dump) [] sec hsec ?_
  intro acc
  simp [parseStep, hsec_none]

/-- Witness for C7. -/
theorem c7_witness : parse_torrent_info "Name: x\nID: 1\nShare Ratio: zz" = none := by
  exact c7_bad_ratio_aborts "Name: x\nID: 1\nShare Ratio: zz" "Name: x\nID: 1\nShare Ratio: zz"
    "Share Ratio: zz" (by decide) (by decide) (by decide) (by decide) (by decide) (by decide)
    (by decide)

/-- C9: on success the parser's output is exactly the in-order filter of
the dump's blocks — each retained block contributes its record at the
position induced by the block order, so when block A precedes block B in
the dump and both are retained, A's record precedes B's in the output. -/
theorem c9_order_preserved (dump : String) (ts : List Torrent)
    (h : parse_torrent_info dump = some ts) :
    ts = (strSplitOn "\n\n" dump).filterMap
        (fun sec => (parseSection sec).bind
          (fun t => if t.name ≠ "" ∧ t.id ≠ "" then some t else none)) := by
  rw [parse_torrent_info] at h
  obtain ⟨fs, hfs⟩ := foldl_parse_some (strSplitOn "\n\n" dump) [] ts h
  rw [foldl_parse_char (strSplitOn "\n\n" dump) [] fs hfs] at h
  injection h with h
  rw [List.nil_append] at h
  rw [← h, mapM_filterMap_eq (strSplitOn "\n\n" dump) fs hfs]

/-- Witness for C9: two retained blocks, output in input order. -/
theorem c9_witness :
    [(⟨"a", "1", "", 0, ""⟩ : Torrent), ⟨"b", "2", "", 0, ""⟩]
      = (strSplitOn "\n\n" "Name: a\nID: 1\n\nName: b\nID: 2").filterMap
          (fun sec => (parseSection sec).bind
            (fun t => if t.name ≠ "" ∧ t.id ≠ "" then some t else none)) := by
  exact c9_order_preserved "Name: a\nID: 1\n\nName: b\nID: 2"
    [⟨"a", "1", "", 0, ""⟩, ⟨"b", "2", "", 0, ""⟩] (by decide)

/-- C8: if any of the four required connection fields is missing (Python
falsiness after the merge: absent, or present but empty) the program
raises before any console command is issued — empty command trace and an
error outcome; when all four are present it proceeds to fetch the dump,
the first issued command being the wrapped `info --detailed`. -/
theorem c8_required_config (a : Args) (oracle : String → Option String) :
    (missing_args a ≠ [] →
      (runMain a oracle).1 = [] ∧ ∃ e, (runMain a oracle).2 = Except.error e)
    ∧ (missing_args a = [] →
      ∃ rest, (runMain a oracle).1 = full_command (cfgOf a) "info --detailed" :: rest) := by
  constructor
  · intro h
    rw [runMain, if_pos h]
    exact ⟨rfl, _, rfl⟩
  · intro h
    rw [runMain, if_neg (by simp [h])]
    cases hp : parse_torrent_info (run_command (cfgOf a) oracle "info --detailed").1 with
    | none =>
      refine ⟨[], ?_⟩
      rw [run_command_trace]
    | some ts =>
      refine ⟨(runLoop (cfgOf a) oracle a.test a.ratio_limit a.allowed_trackers ts).2, ?_⟩
      rw [run_command_trace]
      rfl

/-- Witness for C8: a configuration missing `host` aborts with an empty
trace; a complete configuration issues the dump-fetch command first. -/
theorem c8_witness :
    (runMain ⟨none, some "58846", some "u", some "pw", 1, none, [], false, 0⟩
        (fun _ => none)).1 = []
    ∧ (∃ e, (runMain ⟨none, some "58846", some "u", some "pw", 1, none, [], false, 0⟩
        (fun _ => none)).2 = Except.error e)
    ∧ ∃ rest,
        (runMain ⟨some "h", some "58846", some "u", some "pw", 1, none, [], false, 0⟩
            (fun _ => none)).1
          = full_command
              (cfgOf ⟨some "h", some "58846", some "u", some "pw", 1, none, [], false, 0⟩)
              "info --detailed" :: rest := by
  refine ⟨?_, ?_, ?_⟩
  · exact ((c8_required_config ⟨none, some "58846", some "u", some "pw", 1, none, [], false, 0⟩
      (fun _ => none)).1 (by decide)).1
  · exact ((c8_required_config ⟨none, some "58846", some "u", some "pw", 1, none, [], false, 0⟩
      (fun _ => none)).1 (by decide)).2
  · exact (c8_required_config ⟨some "h", some "58846", some "u", some "pw", 1, none, [], false, 0⟩
      (fun _ => none)).2 (by decide)
